import Mathlib

/-!
Verification development for the pointguard `show` module
(`src/show.rs`): the tree builder that converts a depth-first
directory walk into a nested tree, and the retrieval dispatcher that
decides between revealing a secret, browsing a directory, and a
not-found failure.

Shallow embedding conventions:
* OS-level file names (`OsStr`) are sequences of characters, each either a
  valid unicode character or an invalid byte, so that `to_str` failures of
  non-unicode names are representable.
* Filesystem reads are modelled by an oracle (`FS`) of boolean predicates
  plus a walk stream, since the dispatcher only consults `exists`,
  `is_dir` and the `walkdir` iterator.
* Fallible Rust functions returning `Result` become `Except PGError`.
-/

namespace Pointguard

/-- Error kinds of `std::io::ErrorKind` used by `show.rs`. -/
inductive ErrorKind where
| notFound : ErrorKind
| invalidData : ErrorKind
deriving DecidableEq

/-- The error type of the crate (`PointGuardError`), restricted to the
variants reachable from `show.rs`: wrapped `io::Error`s (with their kind and
message), decryption failures from the gpg collaborator, and
`PointGuardError::Other(anyhow!(..))` messages. The extra `panicked`
value is not a `PointGuardError`: it represents abnormal termination of
the call (a Rust panic, from `opts.input.unwrap()` on a `None` input in
clipboard mode), carrying the bytes already written to the relay before
the panic. -/
inductive PGError where
| io : ErrorKind → String → PGError
| decryption : String → PGError
| other : String → PGError
| panicked : String → PGError
deriving DecidableEq

/-- One character of an OS string: either a valid unicode character or an
invalid byte (as occurs in non-UTF-8 file names on unix). -/
inductive OsChar where
| ch : Char → OsChar
| bad : Nat → OsChar
deriving DecidableEq

/-- An OS string (`OsStr`): a sequence of `OsChar`. -/
abbrev OsStr := List OsChar

/-- The characters of an OS string, when it is valid unicode
(`OsStr::to_str` succeeding), else `none`. -/
def osChars : OsStr → Option (List Char)
| [] => some []
| OsChar.ch c :: rest => (osChars rest).map (fun l => c :: l)
| OsChar.bad _ :: _ => none

/-- `OsStr::to_str`: the name as a `String` when valid unicode. -/
def osToStr (f : OsStr) : Option String :=
  (osChars f).map String.mk

/-- `str::starts_with('.')`: the first character is a dot. -/
def startsWithDot (s : String) : Bool :=
  match s.data with
  | [] => false
  | c :: _ => c = '.'

/-- `is_hidden` from `show.rs`: the entry file name, converted with
`to_str`, starts with a dot; a name that is not valid unicode yields
`false` (`.map(..).unwrap_or(false)`). -/
def is_hidden (name : OsStr) : Bool :=
  ((osToStr name).map startsWithDot).getD false

/-- `Path::file_stem` on a file name: the portion before the last dot,
except that a lone leading dot, a dot-free name, and `..` keep the whole
name (mirrors `std::path::split_file_at_dot`). -/
def fileStem (f : OsStr) : OsStr :=
  if f = [OsChar.ch '.', OsChar.ch '.'] then f
  else
    match f.reverse.dropWhile (fun c => c ≠ OsChar.ch '.') with
    | [] => f
    | _ :: [] => f
    | _ :: rest => rest.reverse

/-- `display_path` from `show.rs`: take the path's `file_stem` (error
`InvalidData` "Found a file with no name" when there is none), convert it
with `to_str` (error `InvalidData` "File name is not valid unicode" when it
is not unicode), and return the resulting string. -/
def display_path (fileName : Option OsStr) : Except PGError String :=
  match fileName with
  | none => Except.error (PGError.io ErrorKind.invalidData "Found a file with no name")
  | some f =>
    match osToStr (fileStem f) with
    | none => Except.error (PGError.io ErrorKind.invalidData "File name is not valid unicode")
    | some s => Except.ok s

/-- A tree of display names, as built by the `pgtree` tree builder and
handed to the rendering collaborator. -/
inductive PGTree where
| node : String → List PGTree → PGTree

/-- The display name at the root of a tree node. -/
def PGTree.name : PGTree → String
| PGTree.node n _ => n

/-- The children of a tree node. -/
def PGTree.children : PGTree → List PGTree
| PGTree.node _ cs => cs

mutual

/-- Decidable equality of trees (the nested inductive blocks deriving). -/
def pgtreeDecEq : (a b : PGTree) → Decidable (a = b)
| PGTree.node n cs, PGTree.node m ds =>
  match decEq n m, pgforestDecEq cs ds with
  | isTrue h1, isTrue h2 => isTrue (by rw [h1, h2])
  | isFalse h1, _ => isFalse (fun h => by cases h; exact h1 rfl)
  | _, isFalse h2 => isFalse (fun h => by cases h; exact h2 rfl)

/-- Decidable equality of sibling lists. -/
def pgforestDecEq : (a b : List PGTree) → Decidable (a = b)
| [], [] => isTrue rfl
| [], _ :: _ => isFalse (fun h => by cases h)
| _ :: _, [] => isFalse (fun h => by cases h)
| a :: as, b :: bs =>
  match pgtreeDecEq a b, pgforestDecEq as bs with
  | isTrue h1, isTrue h2 => isTrue (by rw [h1, h2])
  | isFalse h1, _ => isFalse (fun h => by cases h; exact h1 rfl)
  | _, isFalse h2 => isFalse (fun h => by cases h; exact h2 rfl)

end

instance : DecidableEq PGTree := pgtreeDecEq

/-- Modelled from the spec: the `pgtree::TreeBuilder` state (the module is
not under `src/`). A stack of open scopes, innermost first; each scope is
its display name together with the children accumulated so far. -/
structure TreeBuilder where
  stack : List (String × List PGTree)
deriving DecidableEq

/-- Modelled from the spec: `TreeBuilder::new` opens the synthetic root
scope with the given title. -/
def TreeBuilder.new (title : String) : TreeBuilder :=
  ⟨[(title, [])]⟩

/-- Modelled from the spec: `begin_child` opens a new child scope under
the current node. -/
def TreeBuilder.begin_child (b : TreeBuilder) (n : String) : TreeBuilder :=
  ⟨(n, []) :: b.stack⟩

/-- Modelled from the spec: `add_empty_child` adds a leaf child to the
current scope. -/
def TreeBuilder.add_empty_child (b : TreeBuilder) (n : String) : TreeBuilder :=
  match b.stack with
  | [] => b
  | (m, cs) :: rest => ⟨(m, cs ++ [PGTree.node n []]) :: rest⟩

/-- Modelled from the spec: `end_child` closes the current child scope,
attaching it as a completed child of the scope below it; closing when only
the root scope is open has no effect. -/
def TreeBuilder.end_child (b : TreeBuilder) : TreeBuilder :=
  match b.stack with
  | (m, cs) :: (p, ps) :: rest => ⟨(p, ps ++ [PGTree.node m cs]) :: rest⟩
  | _ => b

/-- Closes the scopes of a stack innermost-first into a single tree. -/
def buildStack : String × List PGTree → List (String × List PGTree) → PGTree
| (m, cs), [] => PGTree.node m cs
| (m, cs), (p, ps) :: rest => buildStack (p, ps ++ [PGTree.node m cs]) rest

/-- Modelled from the spec: `build` closes every remaining open scope and
returns the completed root tree. -/
def TreeBuilder.build (b : TreeBuilder) : PGTree :=
  match b.stack with
  | [] => PGTree.node "" []
  | f :: rest => buildStack f rest

/-- Lexicographic (codepoint) comparison of character sequences: the
locale-agnostic alphabetic order on names (Rust's `Ord` on `String`). -/
def charListLeb : List Char → List Char → Bool
| [], _ => true
| _ :: _, [] => false
| a :: as, b :: bs => if a = b then charListLeb as bs else decide (a < b)

/-- Alphabetic order on strings, by their character sequences. -/
def strLe (s t : String) : Prop :=
  charListLeb s.data t.data = true

instance : DecidableRel strLe := fun s t =>
  inferInstanceAs (Decidable (charListLeb s.data t.data = true))

/-- The comparison used to sort sibling nodes: alphabetic on display
names. -/
def nameLe (a b : PGTree) : Prop :=
  strLe (PGTree.name a) (PGTree.name b)

instance : DecidableRel nameLe := fun a b =>
  inferInstanceAs (Decidable (strLe (PGTree.name a) (PGTree.name b)))

mutual

/-- Modelled from the spec: `sort` on the built tree sorts the children of
every node, recursively, alphabetically by display name (stable). -/
def sortTree : PGTree → PGTree
| PGTree.node n cs => PGTree.node n (List.insertionSort nameLe (sortForest cs))
termination_by structural t => t

/-- Pointwise `sortTree` over a list of siblings. -/
def sortForest : List PGTree → List PGTree
| [] => []
| t :: ts => sortTree t :: sortForest ts
termination_by structural l => l

end

/-- One entry yielded by the `walkdir` iterator: its file-name component,
its depth below the walk root, and whether it is a directory. -/
structure DirEntry where
  name : OsStr
  depth : Nat
  isDir : Bool
deriving DecidableEq

/-- The body of the `print_tree` loop for one non-root entry that survived
the hidden filter, exactly as in `show.rs`: a directory opens a child
scope and increments the depth counter; a non-directory at the counter's
depth becomes a leaf of the current scope; any other non-directory closes
one scope, becomes a leaf of the now-current scope, and decrements the
counter. A failing `display_path` aborts with its error. -/
def stepEntry (b : TreeBuilder) (d : Nat) (e : DirEntry) : Except PGError (TreeBuilder × Nat) :=
  if e.isDir then
    match display_path (some e.name) with
    | Except.error err => Except.error err
    | Except.ok n => Except.ok (b.begin_child n, d + 1)
  else if e.depth = d then
    match display_path (some e.name) with
    | Except.error err => Except.error err
    | Except.ok n => Except.ok (b.add_empty_child n, d)
  else
    match display_path (some e.name) with
    | Except.error err => Except.error err
    | Except.ok n => Except.ok (b.end_child.add_empty_child n, d - 1)

/-- The `print_tree` walk loop over the entry stream: a per-entry walk
error (`Err(_e)`) is skipped (`continue`), a depth-0 entry (the walk root)
is skipped, and every other entry is processed by `stepEntry`. -/
def runWalk : TreeBuilder → Nat → List (Except Unit DirEntry) → Except PGError (TreeBuilder × Nat)
| b, d, [] => Except.ok (b, d)
| b, d, Except.error _ :: rest => runWalk b d rest
| b, d, Except.ok e :: rest =>
  if e.depth = 0 then runWalk b d rest
  else
    match stepEntry b d e with
    | Except.error err => Except.error err
    | Except.ok (b', d') => runWalk b' d' rest

/-- The default title of the root node when no sub-path was requested. -/
def defaultTitle : String := "Point Guard Password Store"

/-- `print_tree` from `show.rs`: build the tree from the (already
hidden-filtered) walk stream with the depth counter starting at 1, sort
it, and hand it to the renderer. The result is the sorted tree the
renderer receives. -/
def printTree (entries : List (Except Unit DirEntry)) (input : Option String) : Except PGError PGTree :=
  match runWalk (TreeBuilder.new (input.getD defaultTitle)) 1 entries with
  | Except.error e => Except.error e
  | Except.ok (b, _) => Except.ok (sortTree b.build)

/-- Strip one trailing carriage return from a line. `str::lines` applies
this only to a line whose terminating newline was just removed, never to
a final line that had no newline terminator. -/
def stripCR (l : List Char) : List Char :=
  match l.getLast? with
  | some c => if c = '\r' then l.dropLast else l
  | none => l

/-- Split a character sequence at newline terminators, with a final
newline optional, as `str::lines` splits before its line-ending
trimming: the empty input has no lines, and a trailing newline does not
open an extra empty line. Every produced piece except the last is
newline-terminated in the input; the last is terminated exactly when the
input ends with a newline. -/
def linesCh : List Char → List (List Char)
| [] => []
| c :: cs =>
  if c = '\n' then [] :: linesCh cs
  else
    match linesCh cs with
    | [] => [[c]]
    | l :: ls => (c :: l) :: ls

/-- Carriage-return trimming over the split pieces: `str::lines` strips a
`'\r'` from a piece only after successfully stripping its terminating
`'\n'`, so every piece but the last is trimmed, and the last only when
`lastTerminated` holds (the input ended with a newline). A final line
such as `"baz\r"` keeps its carriage return. -/
def rustLinesAux : List (List Char) → Bool → List String
| [], _ => []
| [l], lastTerminated => [String.mk (if lastTerminated then stripCR l else l)]
| l :: l2 :: ls, lastTerminated =>
  String.mk (stripCR l) :: rustLinesAux (l2 :: ls) lastTerminated

/-- `str::lines` of the decrypted plaintext: split at newlines (final
newline optional), trimming `"\r\n"` endings but keeping a bare trailing
carriage return on an unterminated final line. -/
def rustLines (s : String) : List String :=
  rustLinesAux (linesCh s.data)
    (match s.data.getLast? with
     | some c => c = '\n'
     | none => false)

/-- The store configuration (`Settings`), as consumed by `show`. -/
structure Settings where
  dir : String
  clip_time : Nat
  generated_length : Nat
  editor : String

/-- The parsed `show` command options (`opts::Show`): the optional
requested name and the clipboard flag. -/
structure Show where
  input : Option String
  clip : Bool

/-- The observable success outcome of one `show` call: the plaintext
written verbatim to the output buffer (print mode), or the bytes written
to the relay's stdin together with the confirmation line written to the
buffer (clipboard mode), or the sorted tree handed to the renderer
(browse). -/
inductive ShowOutcome where
| printed : String → ShowOutcome
| clipped : String → String → ShowOutcome
| browsed : PGTree → ShowOutcome
deriving DecidableEq

/-- The filesystem oracle consulted by the dispatcher: `Path::exists`,
`Path::is_dir`, and the `walkdir` entry stream rooted at a path. -/
structure FS where
  pathExists : String → Bool
  isDir : String → Bool
  walk : String → List (Except Unit DirEntry)

/-- `Path::join` with a relative right-hand side, as used on the store
root with the requested name. -/
def pathJoin (a b : String) : String :=
  a ++ "/" ++ b

/-- The directory candidate: the store root joined with the raw requested
name; the root itself when no name was requested. -/
def dirCandidate (input : Option String) (s : Settings) : String :=
  match input with
  | some name => pathJoin s.dir name
  | none => s.dir

/-- The secret candidate: the store root joined with the requested name
plus the `.gpg` extension; the root itself when no name was requested. -/
def fileCandidate (input : Option String) (s : Settings) : String :=
  match input with
  | some name => pathJoin s.dir (name ++ ".gpg")
  | none => s.dir

/-- The not-found message, naming the requested target or the generic
placeholder. -/
def notFoundMsg (input : Option String) : String :=
  (input.getD "File or folder") ++ " is not in the point guard password store."

/-- The clipboard confirmation line naming the requested target (the
value `opts.input.unwrap()` passes to `writeln!`) and the configured
clear timeout. -/
def clipMsg (name : String) (clipTime : Nat) : String :=
  "Copied " ++ name ++ " to clipboard. Will clear in " ++ toString clipTime ++ " seconds."

/-- The reveal protocol on decrypted plaintext, as in `show.rs`: in
clipboard mode, spawn the relay (failure to obtain its stdin is fatal),
take the first line of the plaintext (none is fatal), write it to the
relay, then format the confirmation with `opts.input.unwrap()` — which
panics when no name was requested, after the relay write has already
happened; the panic is modelled as the abnormal result
`PGError.panicked`, carrying the bytes already written to the relay. In
print mode, write the plaintext verbatim. -/
def revealSecret (relayOk : Bool) (opts : Show) (settings : Settings) (pw : String) : Except PGError ShowOutcome :=
  if opts.clip then
    if relayOk then
      match rustLines pw with
      | [] => Except.error (PGError.other "Error reading the line from the password file.")
      | l :: _ =>
        match opts.input with
        | some name => Except.ok (ShowOutcome.clipped l (clipMsg name settings.clip_time))
        | none => Except.error (PGError.panicked l)
    else Except.error (PGError.other "Error launching child to copy to clipboard.")
  else Except.ok (ShowOutcome.printed pw)

/-- `show` from `show.rs`: resolve the secret and directory candidates; if
the secret candidate exists and is not a directory, decrypt and reveal;
otherwise if the directory candidate is a directory, build and render its
tree; otherwise fail with `NotFound`. -/
def runShow (fs : FS) (decrypt : String → Except PGError String) (relayOk : Bool) (opts : Show) (settings : Settings) : Except PGError ShowOutcome :=
  let file := fileCandidate opts.input settings
  let path := dirCandidate opts.input settings
  if fs.pathExists file && !fs.isDir file then
    match decrypt file with
    | Except.error e => Except.error e
    | Except.ok pw => revealSecret relayOk opts settings pw
  else if fs.isDir path then
    (printTree (fs.walk path) opts.input).map ShowOutcome.browsed
  else
    Except.error (PGError.io ErrorKind.notFound (notFoundMsg opts.input))

/-- A filesystem subtree, used to model what `walkdir` traverses: a file
or a directory with its entries. -/
inductive FSTree where
| file : OsStr → FSTree
| dir : OsStr → List FSTree → FSTree

/-- The file-name component of a filesystem node. -/
def FSTree.name : FSTree → OsStr
| FSTree.file n => n
| FSTree.dir n _ => n

mutual

/-- The unfiltered pre-order `walkdir` stream from a node at a given
depth: the node's own entry, then the entries of its children one level
deeper. -/
def walkAll : Nat → FSTree → List DirEntry
| d, FSTree.file n => [⟨n, d, false⟩]
| d, FSTree.dir n cs => ⟨n, d, true⟩ :: walkAllList (d + 1) cs
termination_by structural _ t => t

/-- `walkAll` over a list of sibling nodes. -/
def walkAllList : Nat → List FSTree → List DirEntry
| _, [] => []
| d, t :: ts => walkAll d t ++ walkAllList d ts
termination_by structural _ l => l

end

mutual

/-- The `walkdir` stream filtered with `filter_entry(|e| !is_hidden(e))`:
a hidden node is pruned together with its whole subtree. -/
def walkFiltered : Nat → FSTree → List DirEntry
| d, FSTree.file n => if is_hidden n then [] else [⟨n, d, false⟩]
| d, FSTree.dir n cs =>
  if is_hidden n then [] else ⟨n, d, true⟩ :: walkFilteredList (d + 1) cs
termination_by structural _ t => t

/-- `walkFiltered` over a list of sibling nodes. -/
def walkFilteredList : Nat → List FSTree → List DirEntry
| _, [] => []
| d, t :: ts => walkFiltered d t ++ walkFilteredList d ts
termination_by structural _ l => l

end

mutual

/-- Remove every hidden node, and with it its whole subtree. -/
def prune : FSTree → Option FSTree
| FSTree.file n => if is_hidden n then none else some (FSTree.file n)
| FSTree.dir n cs =>
  if is_hidden n then none else some (FSTree.dir n (pruneList cs))
termination_by structural t => t

/-- `prune` over a list of sibling nodes, dropping the hidden ones. -/
def pruneList : List FSTree → List FSTree
| [] => []
| t :: ts =>
  match prune t with
  | none => pruneList ts
  | some t' => t' :: pruneList ts
termination_by structural l => l

end

mutual

/-- Every display name occurring in a tree, the root's included. -/
def treeNames : PGTree → List String
| PGTree.node n cs => n :: treeNamesList cs
termination_by structural t => t

/-- `treeNames` over a list of siblings. -/
def treeNamesList : List PGTree → List String
| [] => []
| t :: ts => treeNames t ++ treeNamesList ts
termination_by structural l => l

end

/-- Every display name recorded in a builder stack: the open scopes'
names and all names inside their accumulated children. -/
def stackNames : List (String × List PGTree) → List String
| [] => []
| (n, cs) :: rest => n :: (treeNamesList cs ++ stackNames rest)

mutual

/-- Whether a tree is sorted at every level: the children of every node
are in alphabetic order of display name. -/
def sortedTree : PGTree → Bool
| PGTree.node _ cs => decide (List.Sorted nameLe cs) && sortedForest cs
termination_by structural t => t

/-- `sortedTree` over a list of siblings. -/
def sortedForest : List PGTree → Bool
| [] => true
| t :: ts => sortedTree t && sortedForest ts
termination_by structural l => l

end

/-- The walk stream with the per-entry read errors removed. -/
def dropErrors (l : List (Except Unit DirEntry)) : List (Except Unit DirEntry) :=
  l.filter fun x =>
    match x with
    | Except.ok _ => true
    | Except.error _ => false

deriving instance DecidableEq for Except

/-- An all-valid-unicode OS string, for concrete examples. -/
def asciiName (s : String) : OsStr :=
  s.data.map OsChar.ch

/-- A file name whose stem is valid unicode but whose extension holds an
invalid byte: not valid unicode as a whole, yet strippable. -/
def badExtName : OsStr :=
  [OsChar.ch 't', OsChar.ch '.', OsChar.bad 255]

/-- A file name that is a single invalid byte: not valid unicode, and its
stem is not valid unicode either. -/
def badStemName : OsStr :=
  [OsChar.bad 255]

/-- A concrete store configuration for examples (the values of the
repository's test settings). -/
def baseSettings : Settings :=
  { dir := "root", clip_time := 45, generated_length := 25, editor := "vim" }

/-- A concrete filesystem where `root/d` is a directory that contains a
file named exactly `.gpg`, and a same-named secret `root/d.gpg` sits
beside it. -/
def dotGpgFS : FS :=
  { pathExists := fun p => p == "root/d/.gpg" || p == "root/d.gpg",
    isDir := fun p => p == "root/d/" || p == "root/d",
    walk := fun _ => [] }

/-- A concrete filesystem where `root/d` is a directory (with no `.gpg`
entry inside) and a same-named secret `root/d.gpg` sits beside it. -/
def slashFS : FS :=
  { pathExists := fun p => p == "root/d.gpg",
    isDir := fun p => p == "root/d/" || p == "root/d",
    walk := fun _ => [] }

/-- A concrete filesystem where the secret `root/a.gpg` and the directory
`root/a` both exist at the same level. -/
def bothFS : FS :=
  { pathExists := fun p => p == "root/a.gpg",
    isDir := fun p => p == "root/a",
    walk := fun _ => [] }

/-- A concrete filesystem with nothing in it. -/
def emptyFS : FS :=
  { pathExists := fun _ => false,
    isDir := fun _ => false,
    walk := fun _ => [] }

/-- A concrete store subtree with a hidden directory (`.git`) holding an
entry, beside ordinary secrets. -/
def sampleStore : FSTree :=
  FSTree.dir (asciiName "store")
    [FSTree.file (asciiName "test.gpg"),
     FSTree.dir (asciiName ".git") [FSTree.file (asciiName "config")],
     FSTree.dir (asciiName "dir") [FSTree.file (asciiName "unique.gpg")]]

/-- Structural induction for `PGTree` through its nested child lists. -/
theorem pgtree_ind (P : PGTree → Prop)
    (h : ∀ n cs, (∀ t, t ∈ cs → P t) → P (PGTree.node n cs)) :
    ∀ t, P t
| PGTree.node n cs => h n cs (fun t ht => pgtree_ind P h t)
termination_by t => sizeOf t
decreasing_by
  have hlt := List.sizeOf_lt_of_mem ht
  simp only [PGTree.node.sizeOf_spec]
  omega

/-- Structural induction for `FSTree` through its nested child lists. -/
theorem fstree_ind (P : FSTree → Prop)
    (hf : ∀ n, P (FSTree.file n))
    (hd : ∀ n cs, (∀ t, t ∈ cs → P t) → P (FSTree.dir n cs)) :
    ∀ t, P t
| FSTree.file n => hf n
| FSTree.dir n cs => hd n cs (fun t ht => fstree_ind P hf hd t)
termination_by t => sizeOf t
decreasing_by
  have hlt := List.sizeOf_lt_of_mem ht
  simp only [FSTree.dir.sizeOf_spec]
  omega

/-! ### Order lemmas for the sort comparison -/

theorem charListLeb_total : ∀ as bs, charListLeb as bs = true ∨ charListLeb bs as = true := by
  intro as
  induction as with
  | nil => intro bs; exact Or.inl rfl
  | cons a as ih =>
    intro bs
    cases bs with
    | nil => exact Or.inr rfl
    | cons b bs =>
      by_cases h : a = b
      · subst h
        rcases ih bs with h1 | h1
        · exact Or.inl (by simp [charListLeb, h1])
        · exact Or.inr (by simp [charListLeb, h1])
      · rcases lt_or_gt_of_ne h with hlt | hlt
        · exact Or.inl (by simp [charListLeb, h, hlt])
        · refine Or.inr (by simp [charListLeb, Ne.symm h, hlt])

theorem charListLeb_trans :
    ∀ as bs cs, charListLeb as bs = true → charListLeb bs cs = true →
      charListLeb as cs = true := by
  intro as
  induction as with
  | nil => intro bs cs _ _; rfl
  | cons a as ih =>
    intro bs cs h1 h2
    cases bs with
    | nil => simp [charListLeb] at h1
    | cons b bs =>
      cases cs with
      | nil => simp [charListLeb] at h2
      | cons c cs =>
        by_cases hab : a = b <;> by_cases hbc : b = c
        · subst hab; subst hbc
          rw [charListLeb, if_pos rfl] at h1 h2 ⊢
          exact ih bs cs h1 h2
        · subst hab
          rw [charListLeb, if_neg hbc] at h2
          rw [charListLeb, if_neg hbc]
          exact h2
        · subst hbc
          rw [charListLeb, if_neg hab] at h1
          rw [charListLeb, if_neg hab]
          exact h1
        · rw [charListLeb, if_neg hab] at h1
          rw [charListLeb, if_neg hbc] at h2
          have hac : a < c := lt_trans (of_decide_eq_true h1) (of_decide_eq_true h2)
          rw [charListLeb, if_neg (ne_of_lt hac)]
          exact decide_eq_true hac

instance : IsTotal PGTree nameLe :=
  ⟨fun a b => charListLeb_total (PGTree.name a).data (PGTree.name b).data⟩

instance : IsTrans PGTree nameLe :=
  ⟨fun _ _ _ hab hbc => charListLeb_trans _ _ _ hab hbc⟩

/-! ### Lemmas about the line model -/

theorem linesCh_no_newline : ∀ (cs piece : List Char), piece ∈ linesCh cs → Char.ofNat 10 ∉ piece := by
  intro cs
  induction cs with
  | nil => intro piece h; simp [linesCh] at h
  | cons c rest ih =>
    intro piece h
    by_cases hc : c = '\n'
    · rw [linesCh, if_pos hc] at h
      rcases List.mem_cons.mp h with h1 | h1
      · subst h1; simp
      · exact ih piece h1
    · rw [linesCh, if_neg hc] at h
      cases hrec : linesCh rest with
      | nil =>
        rw [hrec] at h
        rcases List.mem_cons.mp h with h1 | h1
        · subst h1
          intro hmem
          rcases List.mem_singleton.mp hmem with h2
          exact hc h2.symm
        · simp at h1
      | cons l ls =>
        rw [hrec] at h
        rcases List.mem_cons.mp h with h1 | h1
        · subst h1
          intro hmem
          rcases List.mem_cons.mp hmem with h2 | h2
          · exact hc h2.symm
          · exact ih l (hrec ▸ List.mem_cons_self l ls) h2
        · exact ih piece (hrec ▸ List.mem_cons_of_mem l h1)

theorem stripCR_no_newline (piece : List Char) (h : Char.ofNat 10 ∉ piece) :
    Char.ofNat 10 ∉ stripCR piece := by
  unfold stripCR
  cases hlast : piece.getLast? with
  | none => exact h
  | some c =>
    show Char.ofNat 10 ∉ if c = '\r' then piece.dropLast else piece
    by_cases hc : c = '\r'
    · rw [if_pos hc]
      intro hmem
      exact h ((List.dropLast_sublist piece).mem hmem)
    · rw [if_neg hc]; exact h

theorem rustLinesAux_provenance :
    ∀ (ps : List (List Char)) (b : Bool) (x : String), x ∈ rustLinesAux ps b →
      ∃ l, l ∈ ps ∧ (x.data = stripCR l ∨ x.data = l) := by
  intro ps
  induction ps with
  | nil => intro b x h; simp [rustLinesAux] at h
  | cons l ls ih =>
    intro b x h
    cases ls with
    | nil =>
      rw [rustLinesAux] at h
      rcases List.mem_singleton.mp h with rfl
      cases b with
      | true => exact ⟨l, List.mem_singleton.mpr rfl, Or.inl rfl⟩
      | false => exact ⟨l, List.mem_singleton.mpr rfl, Or.inr rfl⟩
    | cons l2 ls2 =>
      rw [rustLinesAux] at h
      rcases List.mem_cons.mp h with rfl | h1
      · exact ⟨l, List.mem_cons_self _ _, Or.inl rfl⟩
      · rcases ih b x h1 with ⟨l0, hl0, hx⟩
        exact ⟨l0, List.mem_cons_of_mem _ hl0, hx⟩

theorem rustLines_no_newline (s : String) (x : String) (h : x ∈ rustLines s) :
    ∀ c, c ∈ x.data → c ≠ '\n' := by
  rcases rustLinesAux_provenance (linesCh s.data) _ x h with ⟨l0, hl0, hx | hx⟩
  · intro c hc hne
    subst hne
    rw [hx] at hc
    exact stripCR_no_newline l0 (linesCh_no_newline s.data l0 hl0) hc
  · intro c hc hne
    subst hne
    rw [hx] at hc
    exact linesCh_no_newline s.data l0 hl0 hc

/-! ### C2: dispatcher resolution order -/

/-- C2. For every requested target the dispatcher resolves in a fixed
order: an existing non-directory secret candidate is revealed (decryption
errors propagate); otherwise a directory candidate that is a directory is
browsed; otherwise the call fails with `NotFound`; and when no target was
requested both candidates are the store root. -/
theorem dispatch_resolution_order
    (fs : FS) (k : String → Except PGError String) (relayOk : Bool)
    (opts : Show) (settings : Settings) :
    (fs.pathExists (fileCandidate opts.input settings) = true →
      fs.isDir (fileCandidate opts.input settings) = false →
      ((∀ pw, k (fileCandidate opts.input settings) = Except.ok pw →
          runShow fs k relayOk opts settings = revealSecret relayOk opts settings pw) ∧
       (∀ e, k (fileCandidate opts.input settings) = Except.error e →
          runShow fs k relayOk opts settings = Except.error e))) ∧
    ((fs.pathExists (fileCandidate opts.input settings) && !fs.isDir (fileCandidate opts.input settings)) = false →
      fs.isDir (dirCandidate opts.input settings) = true →
      runShow fs k relayOk opts settings =
        (printTree (fs.walk (dirCandidate opts.input settings)) opts.input).map ShowOutcome.browsed) ∧
    ((fs.pathExists (fileCandidate opts.input settings) && !fs.isDir (fileCandidate opts.input settings)) = false →
      fs.isDir (dirCandidate opts.input settings) = false →
      runShow fs k relayOk opts settings =
        Except.error (PGError.io ErrorKind.notFound (notFoundMsg opts.input))) ∧
    (opts.input = none →
      fileCandidate opts.input settings = settings.dir ∧
      dirCandidate opts.input settings = settings.dir) := by
  refine ⟨fun hex hnd => ⟨fun pw hpw => ?_, fun e he => ?_⟩, fun hno hdir => ?_, fun hno hndir => ?_, fun hnone => ?_⟩
  · simp [runShow, hex, hnd, hpw]
  · simp [runShow, hex, hnd, he]
  · simp [runShow, hno, hdir]
  · simp [runShow, hno, hndir]
  · simp [fileCandidate, dirCandidate, hnone]

/-- Witness for C2 at a store holding both the secret `root/a.gpg` and
the directory `root/a`: the secret wins. -/
theorem dispatch_resolution_order_witness :
    runShow bothFS (fun _ => Except.ok "pw") false ⟨some "a", false⟩ baseSettings =
      revealSecret false ⟨some "a", false⟩ baseSettings "pw" :=
  ((dispatch_resolution_order bothFS (fun _ => Except.ok "pw") false ⟨some "a", false⟩ baseSettings).1
    (by decide) (by decide)).1 "pw" rfl

/-! ### C6: print mode writes the plaintext verbatim -/

/-- C6. In print mode, a request resolving to a non-directory secret
candidate writes exactly the decrypted plaintext to the output sink. -/
theorem print_mode_verbatim
    (fs : FS) (k : String → Except PGError String) (relayOk : Bool)
    (opts : Show) (settings : Settings) (pw : String)
    (hex : fs.pathExists (fileCandidate opts.input settings) = true)
    (hnd : fs.isDir (fileCandidate opts.input settings) = false)
    (hclip : opts.clip = false)
    (hpw : k (fileCandidate opts.input settings) = Except.ok pw) :
    runShow fs k relayOk opts settings = Except.ok (ShowOutcome.printed pw) := by
  simp [runShow, hex, hnd, hpw, revealSecret, hclip]

/-- Witness for C6: a two-line plaintext is printed whole, untrimmed. -/
theorem print_mode_verbatim_witness :
    runShow bothFS (fun _ => Except.ok "line1\nline2\n") false ⟨some "a", false⟩ baseSettings =
      Except.ok (ShowOutcome.printed "line1\nline2\n") :=
  print_mode_verbatim bothFS (fun _ => Except.ok "line1\nline2\n") false ⟨some "a", false⟩
    baseSettings "line1\nline2\n" (by decide) (by decide) rfl rfl

/-! ### C8: not-found failures -/

/-- C8. When neither candidate resolves, the dispatcher fails with
`NotFound`, its message naming the requested target, or the generic
placeholder when no name was given. -/
theorem not_found_identifies_name
    (fs : FS) (k : String → Except PGError String) (relayOk : Bool)
    (opts : Show) (settings : Settings)
    (hnofile : (fs.pathExists (fileCandidate opts.input settings) && !fs.isDir (fileCandidate opts.input settings)) = false)
    (hnodir : fs.isDir (dirCandidate opts.input settings) = false) :
    runShow fs k relayOk opts settings =
      Except.error (PGError.io ErrorKind.notFound
        ((opts.input.getD "File or folder") ++ " is not in the point guard password store.")) ∧
    ∀ name, opts.input = some name →
      runShow fs k relayOk opts settings =
        Except.error (PGError.io ErrorKind.notFound
          (name ++ " is not in the point guard password store.")) := by
  have h1 : runShow fs k relayOk opts settings =
      Except.error (PGError.io ErrorKind.notFound (notFoundMsg opts.input)) := by
    simp [runShow, hnofile, hnodir]
  refine ⟨h1, fun name hname => ?_⟩
  rw [h1, notFoundMsg, hname]
  simp

/-- Witness for C8: requesting `nope` against an empty store fails with a
`NotFound` message naming `nope`. -/
theorem not_found_identifies_name_witness :
    runShow emptyFS (fun _ => Except.ok "pw") false ⟨some "nope", false⟩ baseSettings =
      Except.error (PGError.io ErrorKind.notFound
        "nope is not in the point guard password store.") :=
  (not_found_identifies_name emptyFS (fun _ => Except.ok "pw") false ⟨some "nope", false⟩
    baseSettings (by decide) (by decide)).2 "nope" rfl

/-! ### C3: clipboard mode forwards only the first line -/

/-- C3. In clipboard mode a decrypted plaintext with at least one line
sends exactly the bytes of the first of its lines — which contain no
newline — to the relay's input stream, and nothing else: with a
requested name the call succeeds with the confirmation line; with no
name the call panics on `opts.input.unwrap()` after the relay write (the
abnormal result records the bytes already sent), so in either case no
byte of any later line reaches the relay. -/
theorem clipboard_first_line_only
    (fs : FS) (k : String → Except PGError String) (relayOk : Bool)
    (opts : Show) (settings : Settings) (pw l : String) (rest : List String)
    (hex : fs.pathExists (fileCandidate opts.input settings) = true)
    (hnd : fs.isDir (fileCandidate opts.input settings) = false)
    (hclip : opts.clip = true) (hrelay : relayOk = true)
    (hpw : k (fileCandidate opts.input settings) = Except.ok pw)
    (hlines : rustLines pw = l :: rest) :
    (∀ name, opts.input = some name →
      runShow fs k relayOk opts settings =
        Except.ok (ShowOutcome.clipped l (clipMsg name settings.clip_time))) ∧
    (opts.input = none →
      runShow fs k relayOk opts settings = Except.error (PGError.panicked l)) ∧
    ∀ c, c ∈ l.data → c ≠ '\n' := by
  refine ⟨fun name hname => ?_, fun hname => ?_, ?_⟩
  · rw [hname] at hex hnd hpw
    simp [runShow, hex, hnd, hpw, revealSecret, hclip, hrelay, hlines, hname]
  · rw [hname] at hex hnd hpw
    simp [runShow, hex, hnd, hpw, revealSecret, hclip, hrelay, hlines, hname]
  · exact rustLines_no_newline pw l (hlines ▸ List.mem_cons_self l rest)

/-- Witness for C3: a three-line secret forwards only its first line
`top` to the relay — the `'\r'` of its `"\r\n"` ending trimmed, while
the unterminated final line `meta2\r` keeps its carriage return in the
line split (per `str::lines`) and never reaches the relay. -/
theorem clipboard_first_line_only_witness :
    runShow bothFS (fun _ => Except.ok "top\r\nmeta1\nmeta2\r") true ⟨some "a", true⟩ baseSettings =
      Except.ok (ShowOutcome.clipped "top" (clipMsg "a" 45)) ∧
    ∀ c, c ∈ "top".data → c ≠ '\n' :=
  ⟨(clipboard_first_line_only bothFS (fun _ => Except.ok "top\r\nmeta1\nmeta2\r") true
      ⟨some "a", true⟩ baseSettings "top\r\nmeta1\nmeta2\r" "top" ["meta1", "meta2\r"]
      (by decide) (by decide) rfl rfl rfl (by decide)).1 "a" rfl,
   (clipboard_first_line_only bothFS (fun _ => Except.ok "top\r\nmeta1\nmeta2\r") true
      ⟨some "a", true⟩ baseSettings "top\r\nmeta1\nmeta2\r" "top" ["meta1", "meta2\r"]
      (by decide) (by decide) rfl rfl rfl (by decide)).2.2⟩

/-! ### C1: the single-depth-counter processing policy -/

/-- C1. One step of the walk loop: a directory entry opens a new child
scope with its stripped name and increments the counter; a non-directory
entry at the counter's depth becomes a leaf of the current scope; any
other non-directory entry closes exactly one scope, becomes a leaf of the
now-current scope, and decrements the counter by exactly one. -/
theorem depth_counter_policy
    (b : TreeBuilder) (d : Nat) (e : DirEntry) (n : String)
    (hn : display_path (some e.name) = Except.ok n) :
    (e.isDir = true → stepEntry b d e = Except.ok (⟨(n, []) :: b.stack⟩, d + 1)) ∧
    (e.isDir = false → e.depth = d →
      ∀ m cs rest, b.stack = (m, cs) :: rest →
        stepEntry b d e = Except.ok (⟨(m, cs ++ [PGTree.node n []]) :: rest⟩, d)) ∧
    (e.isDir = false → e.depth ≠ d → 1 ≤ d →
      ∀ m cs p ps rest, b.stack = (m, cs) :: (p, ps) :: rest →
        stepEntry b d e = Except.ok
          (⟨(p, (ps ++ [PGTree.node m cs]) ++ [PGTree.node n []]) :: rest⟩, d - 1) ∧
        d - 1 + 1 = d) := by
  refine ⟨fun hdir => ?_, fun hdir hdep m cs rest hstack => ?_, fun hdir hdep hd m cs p ps rest hstack => ?_⟩
  · simp [stepEntry, hdir, hn, TreeBuilder.begin_child]
  · cases b with
    | mk stack =>
      simp only at hstack
      subst hstack
      simp [stepEntry, hdir, hdep, hn, TreeBuilder.add_empty_child]
  · cases b with
    | mk stack =>
      simp only at hstack
      subst hstack
      constructor
      · simp [stepEntry, hdir, hdep, hn, TreeBuilder.end_child, TreeBuilder.add_empty_child]
      · omega

/-- Witness for C1, exercising the scope-closing case: a file at depth 1
while the counter is 2 closes the inner scope, lands in the root scope,
and takes the counter back to 1. -/
theorem depth_counter_policy_witness :
    stepEntry ⟨[("inner", []), ("store", [])]⟩ 2 ⟨asciiName "f.gpg", 1, false⟩ =
      Except.ok (⟨[("store", ([] ++ [PGTree.node "inner" []]) ++ [PGTree.node "f" []])]⟩, 2 - 1) ∧
    2 - 1 + 1 = 2 :=
  (depth_counter_policy ⟨[("inner", []), ("store", [])]⟩ 2 ⟨asciiName "f.gpg", 1, false⟩ "f"
    (by decide)).2.2 rfl (by decide) (by decide) "inner" [] "store" [] [] rfl

/-! ### Shared lemmas: aborting the walk on a name-stripping failure -/

theorem stepEntry_display_error (b : TreeBuilder) (d : Nat) (e : DirEntry) (err : PGError)
    (h : display_path (some e.name) = Except.error err) :
    stepEntry b d e = Except.error err := by
  unfold stepEntry
  rw [h]
  by_cases h1 : e.isDir = true <;> by_cases h2 : e.depth = d <;> simp [h1, h2]

theorem runWalk_error_of_bad_entry :
    ∀ (l : List (Except Unit DirEntry)) (b : TreeBuilder) (d : Nat) (e : DirEntry) (err : PGError),
      Except.ok e ∈ l → e.depth ≠ 0 → display_path (some e.name) = Except.error err →
      ∃ err', runWalk b d l = Except.error err' := by
  intro l
  induction l with
  | nil => intro b d e err hmem _ _; simp at hmem
  | cons x rest ih =>
    intro b d e err hmem hdep hdisp
    rcases List.mem_cons.mp hmem with h1 | h1
    · subst h1
      exact ⟨err, by simp [runWalk, hdep, stepEntry_display_error b d e err hdisp]⟩
    · cases x with
      | error u =>
        have hres := ih b d e err h1 hdep hdisp
        simpa [runWalk] using hres
      | ok e2 =>
        by_cases h0 : e2.depth = 0
        · have hres := ih b d e err h1 hdep hdisp
          simpa [runWalk, h0] using hres
        · cases hstep : stepEntry b d e2 with
          | error err2 => exact ⟨err2, by simp [runWalk, h0, hstep]⟩
          | ok pr =>
            have hres := ih pr.1 pr.2 e err h1 hdep hdisp
            simpa [runWalk, h0, hstep] using hres

theorem printTree_error_of_bad_entry
    (l : List (Except Unit DirEntry)) (input : Option String) (e : DirEntry) (err : PGError)
    (hmem : Except.ok e ∈ l) (hdep : e.depth ≠ 0)
    (hdisp : display_path (some e.name) = Except.error err) :
    ∃ err', printTree l input = Except.error err' := by
  obtain ⟨err', h⟩ :=
    runWalk_error_of_bad_entry l (TreeBuilder.new (input.getD defaultTitle)) 1 e err hmem hdep hdisp
  exact ⟨err', by simp [printTree, h]⟩

theorem runWalk_dropErrors :
    ∀ (l : List (Except Unit DirEntry)) (b : TreeBuilder) (d : Nat),
      runWalk b d l = runWalk b d (dropErrors l) := by
  intro l
  induction l with
  | nil => intro b d; rfl
  | cons x rest ih =>
    intro b d
    cases x with
    | error u =>
      have : dropErrors (Except.error u :: rest) = dropErrors rest := by
        simp [dropErrors, List.filter]
      rw [this]
      show runWalk b d rest = runWalk b d (dropErrors rest)
      exact ih b d
    | ok e =>
      have hde : dropErrors (Except.ok e :: rest) = Except.ok e :: dropErrors rest := by
        simp [dropErrors, List.filter]
      rw [hde]
      by_cases h0 : e.depth = 0
      · simp only [runWalk, h0, if_pos]
        exact ih b d
      · simp only [runWalk, h0, if_neg, ite_false]
        cases hstep : stepEntry b d e with
        | error err => rfl
        | ok pr => exact ih pr.1 pr.2

/-! ### C5: error granularity of the walk -/

/-- C5. Per-entry filesystem read errors during the walk are silently
dropped — the built tree is the one built from the error-free stream —
while any name-stripping failure on a processed entry aborts the whole
build with an error. -/
theorem walk_error_granularity (l : List (Except Unit DirEntry)) (input : Option String) :
    printTree l input = printTree (dropErrors l) input ∧
    (∀ e err, Except.ok e ∈ l → e.depth ≠ 0 →
      display_path (some e.name) = Except.error err →
      ∃ err', printTree l input = Except.error err') := by
  constructor
  · simp [printTree, runWalk_dropErrors l]
  · intro e err hmem hdep hdisp
    exact printTree_error_of_bad_entry l input e err hmem hdep hdisp

/-- Witness for C5: a stream with a read error and an unstrippable entry
builds the same as its error-free part, and the bad name aborts it. -/
theorem walk_error_granularity_witness :
    printTree [Except.error (), Except.ok ⟨badStemName, 1, false⟩] none =
      printTree (dropErrors [Except.error (), Except.ok ⟨badStemName, 1, false⟩]) none ∧
    ∃ err', printTree [Except.error (), Except.ok ⟨badStemName, 1, false⟩] none =
      Except.error err' :=
  ⟨(walk_error_granularity [Except.error (), Except.ok ⟨badStemName, 1, false⟩] none).1,
   (walk_error_granularity [Except.error (), Except.ok ⟨badStemName, 1, false⟩] none).2
     ⟨badStemName, 1, false⟩
     (PGError.io ErrorKind.invalidData "File name is not valid unicode")
     (by decide) (by decide) (by decide)⟩

/-! ### C9: trailing path separator -/

/-- C9 as stated is refuted: with the store root `root`, the request
`d/` names the existing directory `root/d/`, and the same-named secret
`root/d.gpg` exists one level up, yet when the directory contains an
entry named exactly `.gpg` (so the secret candidate `root/d/.gpg`
exists as a file) the dispatcher reveals that file instead of browsing
the directory. -/
theorem trailing_separator_counterexample :
    dotGpgFS.isDir (dirCandidate (some "d/") baseSettings) = true ∧
    dotGpgFS.pathExists "root/d.gpg" = true ∧
    runShow dotGpgFS (fun _ => Except.ok "s") false ⟨some "d/", false⟩ baseSettings =
      Except.ok (ShowOutcome.printed "s") := by
  decide

/-- C9 amended. A request ending in a path separator that names an
existing directory resolves as a directory browse provided its secret
candidate — which then denotes an entry named exactly `.gpg` inside that
directory — does not exist as a non-directory; the same-named secret one
level up (`base.gpg` beside the directory) is never that request's secret
candidate, so it cannot shadow the browse. -/
theorem trailing_separator_browse
    (fs : FS) (k : String → Except PGError String) (relayOk : Bool)
    (settings : Settings) (base : String) (clip : Bool)
    (hdir : fs.isDir (dirCandidate (some (base ++ "/")) settings) = true)
    (hsec : (fs.pathExists (fileCandidate (some (base ++ "/")) settings) &&
      !fs.isDir (fileCandidate (some (base ++ "/")) settings)) = false) :
    runShow fs k relayOk ⟨some (base ++ "/"), clip⟩ settings =
      (printTree (fs.walk (dirCandidate (some (base ++ "/")) settings))
        (some (base ++ "/"))).map ShowOutcome.browsed ∧
    fileCandidate (some (base ++ "/")) settings ≠ pathJoin settings.dir (base ++ ".gpg") := by
  constructor
  · simp [runShow, hsec, hdir]
  · intro h
    have hlen := congrArg String.length h
    have hs : ("/" : String).length = 1 := rfl
    have hg : (".gpg" : String).length = 4 := rfl
    simp only [fileCandidate, pathJoin, String.length_append, hs, hg] at hlen
    omega

/-- Witness for C9 amended: requesting `d/` with the secret `root/d.gpg`
beside the directory browses the directory. -/
theorem trailing_separator_browse_witness :
    runShow slashFS (fun _ => Except.ok "s") false ⟨some ("d" ++ "/"), false⟩ baseSettings =
      (printTree (slashFS.walk (dirCandidate (some ("d" ++ "/")) baseSettings))
        (some ("d" ++ "/"))).map ShowOutcome.browsed ∧
    fileCandidate (some ("d" ++ "/")) baseSettings ≠ pathJoin baseSettings.dir ("d" ++ ".gpg") :=
  trailing_separator_browse slashFS (fun _ => Except.ok "s") false baseSettings "d" false
    (by decide) (by decide)

/-! ### C10: entries with non-unicode names -/

/-- C10 as stated is refuted: the entry named by the bytes of `t.`
followed by the invalid byte 255 is not valid unicode, is indeed not
classified as hidden, but the build does not abort on it — its stem `t`
is valid, so it is stripped to `t` and added as a normal leaf. -/
theorem invalid_unicode_counterexample :
    osToStr badExtName = none ∧
    is_hidden badExtName = false ∧
    printTree [Except.ok ⟨badExtName, 1, false⟩] none =
      Except.ok (PGTree.node defaultTitle [PGTree.node "t" []]) := by
  decide

/-- C10 amended. An entry whose file name is not valid unicode is never
classified as hidden, so it survives the filter; the build then aborts
with the invalid-name error when the name's stem is itself not valid
unicode, while invalid bytes confined to the extension leave a valid
stripped name and the entry is added instead. -/
theorem invalid_unicode_entry_policy
    (name : OsStr) (hinvalid : osToStr name = none) :
    is_hidden name = false ∧
    (∀ (l : List (Except Unit DirEntry)) (input : Option String) (e : DirEntry),
      Except.ok e ∈ l → e.depth ≠ 0 → e.name = name →
      osToStr (fileStem name) = none →
      ∃ err, printTree l input = Except.error err) := by
  constructor
  · simp [is_hidden, hinvalid]
  · intro l input e hmem hdep hname hstem
    have hdisp : display_path (some e.name) =
        Except.error (PGError.io ErrorKind.invalidData "File name is not valid unicode") := by
      rw [hname]
      simp [display_path, hstem]
    exact printTree_error_of_bad_entry l input e _ hmem hdep hdisp

/-- Witness for C10 amended: a name that is a lone invalid byte is not
hidden and aborts the build. -/
theorem invalid_unicode_entry_policy_witness :
    is_hidden badStemName = false ∧
    ∃ err, printTree [Except.ok ⟨badStemName, 1, false⟩] none = Except.error err :=
  ⟨(invalid_unicode_entry_policy badStemName (by decide)).1,
   (invalid_unicode_entry_policy badStemName (by decide)).2
     [Except.ok ⟨badStemName, 1, false⟩] none ⟨badStemName, 1, false⟩
     (List.mem_singleton.mpr rfl) (by decide) rfl (by decide)⟩

/-! ### Lemmas about sorting the tree -/

theorem mem_sortForest : ∀ (l : List PGTree) (x : PGTree),
    x ∈ sortForest l ↔ ∃ t, t ∈ l ∧ x = sortTree t := by
  intro l
  induction l with
  | nil => intro x; simp [sortForest]
  | cons t ts ih =>
    intro x
    rw [sortForest]
    simp only [List.mem_cons, ih]
    constructor
    · rintro (h | ⟨t0, ht0, rfl⟩)
      · exact ⟨t, Or.inl rfl, h⟩
      · exact ⟨t0, Or.inr ht0, rfl⟩
    · rintro ⟨t0, ht0, rfl⟩
      rcases ht0 with h | h
      · subst h; exact Or.inl rfl
      · exact Or.inr ⟨t0, h, rfl⟩

theorem sortedForest_iff : ∀ l : List PGTree,
    sortedForest l = true ↔ ∀ t, t ∈ l → sortedTree t = true := by
  intro l
  induction l with
  | nil => simp [sortedForest]
  | cons t ts ih =>
    rw [sortedForest]
    simp only [Bool.and_eq_true, ih, List.mem_cons]
    constructor
    · rintro ⟨h1, h2⟩ t0 (rfl | h)
      · exact h1
      · exact h2 t0 h
    · intro h
      exact ⟨h t (Or.inl rfl), fun t0 h0 => h t0 (Or.inr h0)⟩

theorem sortedTree_sortTree : ∀ t, sortedTree (sortTree t) = true := by
  refine pgtree_ind (fun t => sortedTree (sortTree t) = true) ?_
  intro n cs ih
  rw [sortTree, sortedTree]
  apply Bool.and_eq_true_iff.mpr
  constructor
  · exact decide_eq_true (List.sorted_insertionSort nameLe (sortForest cs))
  · apply (sortedForest_iff _).mpr
    intro t ht
    rcases (mem_sortForest cs t).1 ((List.mem_insertionSort nameLe).1 ht) with ⟨t0, ht0, rfl⟩
    exact ih t0 ht0

theorem sortForest_eq_self : ∀ (cs : List PGTree),
    (∀ t, t ∈ cs → sortedTree t = true → sortTree t = t) →
    sortedForest cs = true → sortForest cs = cs := by
  intro cs
  induction cs with
  | nil => intro _ _; rfl
  | cons t ts ih =>
    intro h hs
    rw [sortedForest, Bool.and_eq_true_iff] at hs
    rw [sortForest, h t (List.mem_cons_self t ts) hs.1,
      ih (fun t0 h0 => h t0 (List.mem_cons_of_mem t h0)) hs.2]

theorem sortTree_eq_self_of_sorted : ∀ t, sortedTree t = true → sortTree t = t := by
  refine pgtree_ind (fun t => sortedTree t = true → sortTree t = t) ?_
  intro n cs ih hs
  rw [sortedTree, Bool.and_eq_true_iff] at hs
  rw [sortTree, sortForest_eq_self cs ih hs.2,
    (of_decide_eq_true hs.1 : List.Sorted nameLe cs).insertionSort_eq]

theorem sortTree_idempotent (t : PGTree) : sortTree (sortTree t) = sortTree t :=
  sortTree_eq_self_of_sorted (sortTree t) (sortedTree_sortTree t)

/-! ### C7: the rendered tree is recursively sorted, idempotently -/

/-- C7. Every tree the builder hands to the renderer is sorted
alphabetically by display name at every level, and sorting is idempotent
on it: re-sorting yields the identical tree, hence identical rendered
output under any deterministic renderer. -/
theorem build_sorted_idempotent
    (entries : List (Except Unit DirEntry)) (input : Option String) (t : PGTree)
    (h : printTree entries input = Except.ok t) :
    sortedTree t = true ∧ sortTree t = t ∧
    ∀ render : PGTree → String, render (sortTree t) = render t := by
  have hsorted : sortedTree t = true := by
    rw [printTree] at h
    cases hrw : runWalk (TreeBuilder.new (input.getD defaultTitle)) 1 entries with
    | error e => rw [hrw] at h; cases h
    | ok pr =>
      rw [hrw] at h
      have : sortTree (TreeBuilder.build pr.1) = t := by
        cases h; rfl
      rw [← this]
      exact sortedTree_sortTree _
  have hfix : sortTree t = t := sortTree_eq_self_of_sorted t hsorted
  exact ⟨hsorted, hfix, fun render => by rw [hfix]⟩

/-- Witness for C7 on the sample store's filtered walk. -/
theorem build_sorted_idempotent_witness :
    sortedTree (PGTree.node defaultTitle
      [PGTree.node "dir" [PGTree.node "unique" []], PGTree.node "test" []]) = true ∧
    sortTree (PGTree.node defaultTitle
      [PGTree.node "dir" [PGTree.node "unique" []], PGTree.node "test" []]) =
      PGTree.node defaultTitle
        [PGTree.node "dir" [PGTree.node "unique" []], PGTree.node "test" []] ∧
    ∀ render : PGTree → String,
      render (sortTree (PGTree.node defaultTitle
        [PGTree.node "dir" [PGTree.node "unique" []], PGTree.node "test" []])) =
      render (PGTree.node defaultTitle
        [PGTree.node "dir" [PGTree.node "unique" []], PGTree.node "test" []]) :=
  build_sorted_idempotent ((walkFiltered 0 sampleStore).map Except.ok) none
    (PGTree.node defaultTitle
      [PGTree.node "dir" [PGTree.node "unique" []], PGTree.node "test" []])
    (by decide)

/-! ### Lemmas tracking display names through the builder -/

theorem treeNamesList_append : ∀ l1 l2 : List PGTree,
    treeNamesList (l1 ++ l2) = treeNamesList l1 ++ treeNamesList l2 := by
  intro l1 l2
  induction l1 with
  | nil => simp [treeNamesList]
  | cons t ts ih =>
    rw [List.cons_append, treeNamesList, treeNamesList, ih, List.append_assoc]

theorem mem_treeNamesList : ∀ (l : List PGTree) (x : String),
    x ∈ treeNamesList l ↔ ∃ t, t ∈ l ∧ x ∈ treeNames t := by
  intro l x
  induction l with
  | nil => simp [treeNamesList]
  | cons t ts ih =>
    rw [treeNamesList]
    simp only [List.mem_append, ih, List.mem_cons]
    constructor
    · rintro (h | ⟨t0, h0, hx⟩)
      · exact ⟨t, Or.inl rfl, h⟩
      · exact ⟨t0, Or.inr h0, hx⟩
    · rintro ⟨t0, h0 | h0, hx⟩
      · subst h0; exact Or.inl hx
      · exact Or.inr ⟨t0, h0, hx⟩

theorem treeNames_sortTree : ∀ (t : PGTree) (x : String),
    x ∈ treeNames (sortTree t) ↔ x ∈ treeNames t := by
  refine pgtree_ind (fun t => ∀ x, x ∈ treeNames (sortTree t) ↔ x ∈ treeNames t) ?_
  intro n cs ih x
  rw [sortTree, treeNames, treeNames]
  simp only [List.mem_cons]
  apply or_congr Iff.rfl
  rw [mem_treeNamesList, mem_treeNamesList]
  constructor
  · rintro ⟨t', ht', hx⟩
    rcases (mem_sortForest cs t').1 ((List.mem_insertionSort nameLe).1 ht') with ⟨t0, ht0, rfl⟩
    exact ⟨t0, ht0, (ih t0 ht0 x).1 hx⟩
  · rintro ⟨t0, ht0, hx⟩
    exact ⟨sortTree t0,
      (List.mem_insertionSort nameLe).2 ((mem_sortForest cs _).2 ⟨t0, ht0, rfl⟩),
      (ih t0 ht0 x).2 hx⟩

theorem mem_buildStack : ∀ (rest : List (String × List PGTree)) (f : String × List PGTree) (x : String),
    x ∈ treeNames (buildStack f rest) ↔ x ∈ stackNames (f :: rest) := by
  intro rest
  induction rest with
  | nil =>
    rintro ⟨m, cs⟩ x
    rw [buildStack, treeNames]
    simp [stackNames]
  | cons g rest ih =>
    rintro ⟨m, cs⟩ x
    rcases g with ⟨p, ps⟩
    rw [buildStack, ih]
    simp only [stackNames, treeNamesList_append, treeNamesList, treeNames,
      List.mem_cons, List.mem_append, List.append_nil]
    tauto

theorem stepEntry_names (b : TreeBuilder) (d : Nat) (e : DirEntry) (b' : TreeBuilder) (d' : Nat)
    (hstep : stepEntry b d e = Except.ok (b', d')) :
    (b.stack ≠ [] → b'.stack ≠ []) ∧
    (∀ x, x ∈ stackNames b'.stack →
      x ∈ stackNames b.stack ∨ display_path (some e.name) = Except.ok x) := by
  cases hdp : display_path (some e.name) with
  | error err =>
    rw [stepEntry_display_error b d e err hdp] at hstep
    cases hstep
  | ok n =>
    have hor : ∀ x, (x ∈ stackNames b.stack ∨ x = n) →
        x ∈ stackNames b.stack ∨ (Except.ok n : Except PGError String) = Except.ok x := by
      rintro x (h | rfl)
      · exact Or.inl h
      · exact Or.inr rfl
    rw [stepEntry, hdp] at hstep
    by_cases h1 : e.isDir = true
    · rw [if_pos h1] at hstep
      injection hstep with hpr
      have hb : b' = b.begin_child n := (congrArg Prod.fst hpr).symm
      subst hb
      refine ⟨fun _ => by simp [TreeBuilder.begin_child], fun x hx => hor x ?_⟩
      revert hx
      show x ∈ stackNames ((n, []) :: b.stack) → _
      simp only [stackNames, treeNamesList, List.mem_cons, List.nil_append]
      tauto
    · rw [if_neg h1] at hstep
      by_cases h2 : e.depth = d
      · rw [if_pos h2] at hstep
        injection hstep with hpr
        have hb : b' = b.add_empty_child n := (congrArg Prod.fst hpr).symm
        subst hb
        cases hstack : b.stack with
        | nil =>
          have hb2 : TreeBuilder.add_empty_child b n = b := by
            unfold TreeBuilder.add_empty_child
            rw [hstack]
          constructor
          · intro h; exact absurd rfl h
          · intro x hx
            rw [hb2, hstack] at hx
            exact Or.inl hx
        | cons fr rest =>
          rcases fr with ⟨m, cs⟩
          have hb2 : TreeBuilder.add_empty_child b n =
              ⟨(m, cs ++ [PGTree.node n []]) :: rest⟩ := by
            unfold TreeBuilder.add_empty_child
            rw [hstack]
          rw [hb2]
          refine ⟨fun _ => by simp, fun x hx => ?_⟩
          have hor2 : (x ∈ stackNames ((m, cs) :: rest) ∨ x = n) →
              x ∈ stackNames ((m, cs) :: rest) ∨
                (Except.ok n : Except PGError String) = Except.ok x := by
            rintro (h | rfl)
            · exact Or.inl h
            · exact Or.inr rfl
          apply hor2
          revert hx
          simp only [stackNames, treeNamesList_append, treeNamesList, treeNames,
            List.mem_cons, List.mem_append, List.append_nil, List.not_mem_nil]
          tauto
      · rw [if_neg h2] at hstep
        injection hstep with hpr
        have hb : b' = b.end_child.add_empty_child n := (congrArg Prod.fst hpr).symm
        subst hb
        cases hstack : b.stack with
        | nil =>
          have he : TreeBuilder.end_child b = b := by
            unfold TreeBuilder.end_child
            rw [hstack]
          have hb2 : TreeBuilder.add_empty_child (TreeBuilder.end_child b) n = b := by
            rw [he]
            unfold TreeBuilder.add_empty_child
            rw [hstack]
          constructor
          · intro h; exact absurd rfl h
          · intro x hx
            rw [hb2, hstack] at hx
            exact Or.inl hx
        | cons fr rest =>
          rcases fr with ⟨m, cs⟩
          cases rest with
          | nil =>
            have he : TreeBuilder.end_child b = b := by
              unfold TreeBuilder.end_child
              rw [hstack]
            have hb2 : TreeBuilder.add_empty_child (TreeBuilder.end_child b) n =
                ⟨[(m, cs ++ [PGTree.node n []])]⟩ := by
              rw [he]
              unfold TreeBuilder.add_empty_child
              rw [hstack]
            rw [hb2]
            refine ⟨fun _ => by simp, fun x hx => ?_⟩
            have hor2 : (x ∈ stackNames [(m, cs)] ∨ x = n) →
                x ∈ stackNames [(m, cs)] ∨
                  (Except.ok n : Except PGError String) = Except.ok x := by
              rintro (h | rfl)
              · exact Or.inl h
              · exact Or.inr rfl
            apply hor2
            revert hx
            simp only [stackNames, treeNamesList_append, treeNamesList, treeNames,
              List.mem_cons, List.mem_append, List.append_nil, List.not_mem_nil]
            tauto
          | cons fr2 rest2 =>
            rcases fr2 with ⟨p, ps⟩
            have he : TreeBuilder.end_child b = ⟨(p, ps ++ [PGTree.node m cs]) :: rest2⟩ := by
              unfold TreeBuilder.end_child
              rw [hstack]
            have hb2 : TreeBuilder.add_empty_child (TreeBuilder.end_child b) n =
                ⟨(p, (ps ++ [PGTree.node m cs]) ++ [PGTree.node n []]) :: rest2⟩ := by
              rw [he]
              unfold TreeBuilder.add_empty_child
              rfl
            rw [hb2]
            refine ⟨fun _ => by simp, fun x hx => ?_⟩
            have hor2 : (x ∈ stackNames ((m, cs) :: (p, ps) :: rest2) ∨ x = n) →
                x ∈ stackNames ((m, cs) :: (p, ps) :: rest2) ∨
                  (Except.ok n : Except PGError String) = Except.ok x := by
              rintro (h | rfl)
              · exact Or.inl h
              · exact Or.inr rfl
            apply hor2
            revert hx
            simp only [stackNames, treeNamesList_append, treeNamesList, treeNames,
              List.mem_cons, List.mem_append, List.append_nil, List.not_mem_nil]
            tauto

theorem runWalk_names :
    ∀ (l : List (Except Unit DirEntry)) (b : TreeBuilder) (d : Nat) (b' : TreeBuilder) (d' : Nat),
      runWalk b d l = Except.ok (b', d') →
      (b.stack ≠ [] → b'.stack ≠ []) ∧
      (∀ x, x ∈ stackNames b'.stack →
        x ∈ stackNames b.stack ∨
        ∃ e, Except.ok e ∈ l ∧ display_path (some e.name) = Except.ok x) := by
  intro l
  induction l with
  | nil =>
    intro b d b' d' h
    injection h with hpr
    have hb : b' = b := (congrArg Prod.fst hpr).symm
    subst hb
    exact ⟨fun h => h, fun x hx => Or.inl hx⟩
  | cons y rest ih =>
    intro b d b' d' h
    cases y with
    | error u =>
      have h' : runWalk b d rest = Except.ok (b', d') := h
      rcases ih b d b' d' h' with ⟨hne, hnames⟩
      refine ⟨hne, fun x hx => ?_⟩
      rcases hnames x hx with hx1 | ⟨e, he, hde⟩
      · exact Or.inl hx1
      · exact Or.inr ⟨e, List.mem_cons_of_mem _ he, hde⟩
    | ok e0 =>
      by_cases h0 : e0.depth = 0
      · have h' : runWalk b d rest = Except.ok (b', d') := by
          rw [runWalk, if_pos h0] at h
          exact h
        rcases ih b d b' d' h' with ⟨hne, hnames⟩
        refine ⟨hne, fun x hx => ?_⟩
        rcases hnames x hx with hx1 | ⟨e, he, hde⟩
        · exact Or.inl hx1
        · exact Or.inr ⟨e, List.mem_cons_of_mem _ he, hde⟩
      · rw [runWalk, if_neg h0] at h
        cases hstep : stepEntry b d e0 with
        | error err => rw [hstep] at h; cases h
        | ok pr =>
          rw [hstep] at h
          have h' : runWalk pr.1 pr.2 rest = Except.ok (b', d') := h
          rcases ih pr.1 pr.2 b' d' h' with ⟨hne, hnames⟩
          rcases stepEntry_names b d e0 pr.1 pr.2 (by rw [hstep]) with ⟨hne0, hnames0⟩
          refine ⟨fun hb => hne (hne0 hb), fun x hx => ?_⟩
          rcases hnames x hx with hx1 | ⟨e, he, hde⟩
          · rcases hnames0 x hx1 with hx2 | hx2
            · exact Or.inl hx2
            · exact Or.inr ⟨e0, List.mem_cons_self _ _, hx2⟩
          · exact Or.inr ⟨e, List.mem_cons_of_mem _ he, hde⟩

theorem printTree_names
    (l : List (Except Unit DirEntry)) (input : Option String) (t : PGTree) (x : String)
    (h : printTree l input = Except.ok t) (hx : x ∈ treeNames t) :
    x = input.getD defaultTitle ∨
    ∃ e, Except.ok e ∈ l ∧ display_path (some e.name) = Except.ok x := by
  rw [printTree] at h
  cases hrw : runWalk (TreeBuilder.new (input.getD defaultTitle)) 1 l with
  | error err => rw [hrw] at h; cases h
  | ok pr =>
    rw [hrw] at h
    injection h with ht
    subst ht
    rcases runWalk_names l (TreeBuilder.new (input.getD defaultTitle)) 1 pr.1 pr.2 hrw with
      ⟨hne, hnames⟩
    have hnonempty : pr.1.stack ≠ [] := hne (by simp [TreeBuilder.new])
    have hx' : x ∈ treeNames (TreeBuilder.build pr.1) := (treeNames_sortTree _ x).1 hx
    cases hstack : pr.1.stack with
    | nil => exact absurd hstack hnonempty
    | cons f rest =>
      rw [TreeBuilder.build, hstack] at hx'
      have hx'' : x ∈ stackNames pr.1.stack := by
        rw [hstack]
        exact (mem_buildStack rest f x).1 hx'
      rcases hnames x hx'' with hx1 | hx1
      · left
        rw [TreeBuilder.new] at hx1
        simp [stackNames, treeNamesList] at hx1
        exact hx1
      · exact Or.inr hx1

/-! ### Lemmas about the filtered walk -/

theorem mem_walkFilteredList : ∀ (cs : List FSTree) (d : Nat) (e : DirEntry),
    e ∈ walkFilteredList d cs ↔ ∃ t, t ∈ cs ∧ e ∈ walkFiltered d t := by
  intro cs d e
  induction cs with
  | nil => simp [walkFilteredList]
  | cons t ts ih =>
    rw [walkFilteredList]
    simp only [List.mem_append, ih, List.mem_cons]
    constructor
    · rintro (h | ⟨t0, h0, he⟩)
      · exact ⟨t, Or.inl rfl, h⟩
      · exact ⟨t0, Or.inr h0, he⟩
    · rintro ⟨t0, h0 | h0, he⟩
      · subst h0; exact Or.inl he
      · exact Or.inr ⟨t0, h0, he⟩

theorem mem_walkAllList : ∀ (cs : List FSTree) (d : Nat) (e : DirEntry),
    e ∈ walkAllList d cs ↔ ∃ t, t ∈ cs ∧ e ∈ walkAll d t := by
  intro cs d e
  induction cs with
  | nil => simp [walkAllList]
  | cons t ts ih =>
    rw [walkAllList]
    simp only [List.mem_append, ih, List.mem_cons]
    constructor
    · rintro (h | ⟨t0, h0, he⟩)
      · exact ⟨t, Or.inl rfl, h⟩
      · exact ⟨t0, Or.inr h0, he⟩
    · rintro ⟨t0, h0 | h0, he⟩
      · subst h0; exact Or.inl he
      · exact Or.inr ⟨t0, h0, he⟩

theorem walkFiltered_not_hidden : ∀ (t : FSTree) (d : Nat) (e : DirEntry),
    e ∈ walkFiltered d t → is_hidden e.name = false := by
  refine fstree_ind (fun t => ∀ d e, e ∈ walkFiltered d t → is_hidden e.name = false) ?_ ?_
  · intro n d e hmem
    cases hh : is_hidden n
    · rw [walkFiltered, hh] at hmem
      simp at hmem
      subst hmem
      exact hh
    · rw [walkFiltered, hh] at hmem
      simp at hmem
  · intro n cs ih d e hmem
    cases hh : is_hidden n
    · rw [walkFiltered, hh] at hmem
      simp only [Bool.false_eq_true, if_false, List.mem_cons] at hmem
      rcases hmem with hmem | hmem
      · subst hmem; exact hh
      · rcases (mem_walkFilteredList cs (d + 1) e).1 hmem with ⟨t0, ht0, he⟩
        exact ih t0 ht0 (d + 1) e he
    · rw [walkFiltered, hh] at hmem
      simp at hmem

theorem walkFiltered_sub_walkAll : ∀ (t : FSTree) (d : Nat) (e : DirEntry),
    e ∈ walkFiltered d t → e ∈ walkAll d t := by
  refine fstree_ind (fun t => ∀ d e, e ∈ walkFiltered d t → e ∈ walkAll d t) ?_ ?_
  · intro n d e hmem
    cases hh : is_hidden n
    · rw [walkFiltered, hh] at hmem
      rw [walkAll]
      simpa using hmem
    · rw [walkFiltered, hh] at hmem
      simp at hmem
  · intro n cs ih d e hmem
    cases hh : is_hidden n
    · rw [walkFiltered, hh] at hmem
      rw [walkAll]
      simp only [Bool.false_eq_true, if_false, List.mem_cons] at hmem
      rcases hmem with hmem | hmem
      · exact List.mem_cons.mpr (Or.inl hmem)
      · rcases (mem_walkFilteredList cs (d + 1) e).1 hmem with ⟨t0, ht0, he⟩
        exact List.mem_cons.mpr (Or.inr ((mem_walkAllList cs (d + 1) e).2 ⟨t0, ht0, ih t0 ht0 (d + 1) e he⟩))
    · rw [walkFiltered, hh] at hmem
      simp at hmem

theorem walkFiltered_eq_pruneWalk : ∀ (t : FSTree) (d : Nat),
    walkFiltered d t = Option.elim (prune t) [] (walkAll d) := by
  refine fstree_ind (fun t => ∀ d, walkFiltered d t = Option.elim (prune t) [] (walkAll d)) ?_ ?_
  · intro n d
    cases hh : is_hidden n
    · rw [walkFiltered, hh, prune, hh]
      rfl
    · rw [walkFiltered, hh, prune, hh]
      rfl
  · intro n cs ih d
    cases hh : is_hidden n
    · rw [walkFiltered, hh, prune, hh]
      simp only [Bool.false_eq_true, if_false, Option.elim, walkAll]
      congr 1
      induction cs with
      | nil => rfl
      | cons t0 ts ihl =>
        rw [walkFilteredList, pruneList]
        have ht0 := ih t0 (List.mem_cons_self t0 ts) (d + 1)
        cases hp : prune t0 with
        | none =>
          rw [hp] at ht0
          rw [ht0]
          simp only [Option.elim, List.nil_append]
          exact ihl (fun t1 ht1 => ih t1 (List.mem_cons_of_mem t0 ht1))
        | some t0' =>
          rw [hp] at ht0
          rw [ht0, walkAllList]
          simp only [Option.elim]
          congr 1
          exact ihl (fun t1 ht1 => ih t1 (List.mem_cons_of_mem t0 ht1))
    · rw [walkFiltered, hh, prune, hh]
      rfl

/-! ### C4: the built tree excludes hidden entries and outside entries -/

/-- C4. The tree built from the filtered walk of a store contains, beyond
its synthetic root label, only stripped names of entries of the filtered
walk; every such entry is non-hidden and belongs to the walked subtree;
and the filtered walk is exactly the full walk of the store with every
hidden node pruned together with its whole subtree — so no hidden entry,
nothing beneath a hidden directory, and nothing outside the subtree is
represented. -/
theorem browse_hidden_filter
    (fs : FSTree) (input : Option String) (t : PGTree)
    (h : printTree ((walkFiltered 0 fs).map Except.ok) input = Except.ok t) :
    (∀ x, x ∈ treeNames t → x = input.getD defaultTitle ∨
      ∃ e, e ∈ walkFiltered 0 fs ∧ display_path (some e.name) = Except.ok x) ∧
    (∀ e, e ∈ walkFiltered 0 fs → is_hidden e.name = false ∧ e ∈ walkAll 0 fs) ∧
    walkFiltered 0 fs = Option.elim (prune fs) [] (walkAll 0) := by
  refine ⟨fun x hx => ?_, fun e he => ?_, walkFiltered_eq_pruneWalk fs 0⟩
  · rcases printTree_names ((walkFiltered 0 fs).map Except.ok) input t x h hx with h1 | ⟨e, he, hde⟩
    · exact Or.inl h1
    · rcases List.mem_map.mp he with ⟨e', he', heq⟩
      injection heq with heq'
      subst heq'
      exact Or.inr ⟨e', he', hde⟩
  · exact ⟨walkFiltered_not_hidden fs 0 e he, walkFiltered_sub_walkAll fs 0 e he⟩

/-- Witness for C4 on the sample store: `test` is a stripped name of a
filtered entry, and the filtered walk is the pruned full walk. -/
theorem browse_hidden_filter_witness :
    ("test" = (none : Option String).getD defaultTitle ∨
      ∃ e, e ∈ walkFiltered 0 sampleStore ∧ display_path (some e.name) = Except.ok "test") ∧
    walkFiltered 0 sampleStore = Option.elim (prune sampleStore) [] (walkAll 0) :=
  ⟨(browse_hidden_filter sampleStore none
      (PGTree.node defaultTitle [PGTree.node "dir" [PGTree.node "unique" []], PGTree.node "test" []])
      (by decide)).1 "test" (by decide),
   (browse_hidden_filter sampleStore none
      (PGTree.node defaultTitle [PGTree.node "dir" [PGTree.node "unique" []], PGTree.node "test" []])
      (by decide)).2.2⟩

end Pointguard
